import Mathlib

/-!
Verification development for the gerber2blend board-geometry and stackup core.

The Python sources under `src/gerber2blend/modules/` are shallowly embedded:

* `custom_utilities.py` — vertex sampling (`get_vertices`), the K-D tree
  nearest-neighbour queries (`kd.find`, modelled by `kdFind`), the vertex
  set-difference (`get_verts_difference`), coincidence testing (`verts_in`)
  and face classification (`face_sel`).
* `board.py` — the hole-cutting pipeline of `make_board` (boolean difference
  plus artifact cleanup, and the order in which the bare / all / plated
  edge-vertex sets are sampled), the stacked layer duplication loop, and
  `generate_all_layers_list`.
* `stackup.py` — `_parse_stackup_from_file` with its dielectric-entry merge
  pass.

Machine floats are modelled by exact rationals (`ℚ`); Euclidean distances are
represented by their squares so that every comparison stays rational
(`d < tol` on distances becomes `d² < tol²` on squared distances, and the
Python truthiness test `if dist:` becomes `d² ≠ 0`).  The Blender mesh kernel
and the balanced K-D tree are external collaborators of the code under
verification; the K-D tree is modelled as an exact nearest-neighbour search
over the inserted vertex list (first minimal index on ties), and boolean mesh
operations appear as opaque function parameters of the pipeline.
-/

/-- A mesh vertex: the `(x, y, z)` coordinate triple used throughout
`custom_utilities.py`, with machine floats modelled as rationals. -/
structure Vert where
  x : ℚ
  y : ℚ
  z : ℚ
deriving DecidableEq

/-- Squared Euclidean distance between two vertices.  All tolerance
comparisons of the source are performed on squared distances. -/
def dist2 (a b : Vert) : ℚ :=
  (a.x - b.x) ^ 2 + (a.y - b.y) ^ 2 + (a.z - b.z) ^ 2

/-- The square of the `0.0001` coincidence tolerance used by
`get_verts_difference` and `verts_in`. -/
def eps2 : ℚ := (1 / 10000) ^ 2

/-- `kd.find(p)` of the Blender K-D tree built from `verts`
(`make_kd_tree` in `custom_utilities.py`): returns `(index, squared
distance)` of a nearest inserted vertex, `none` on an empty tree (the
Python call returns `(None, None, None)` there).  Ties resolve to the
first inserted index, matching the "first found nearest match" contract. -/
def kdFind : List Vert → Vert → Option (Nat × ℚ)
  | [], _ => none
  | v :: rest, p =>
    match kdFind rest p with
    | none => some (0, dist2 v p)
    | some (j, d) => if dist2 v p ≤ d then some (0, dist2 v p) else some (j + 1, d)

/-- Rounding of one float coordinate to `prec` decimal places, as done by
`Vector.to_tuple(prec)` inside `get_vertices`. -/
def roundToPlaces (prec : Nat) (q : ℚ) : ℚ :=
  (round (q * 10 ^ prec) : ℤ) / 10 ^ prec

/-- `get_vertices(mesh, precision)` from `custom_utilities.py`: the vertex
coordinates of a mesh, each rounded to `precision` decimal places.  A mesh is
modelled by its vertex list, which is all this function reads. -/
def get_vertices (mesh : List Vert) (precision : Nat) : List Vert :=
  mesh.map fun v =>
    ⟨roundToPlaces precision v.x, roundToPlaces precision v.y, roundToPlaces precision v.z⟩

/-- The marking loop of `get_verts_difference`: walks `remove_set`, finds the
nearest `main`-vertex of each element, and marks its index for removal when
the distance is below the tolerance and the index is not yet marked.  On an
empty `main` list `kd.find` yields `None` and the Python comparison
`dist < 0.0001` raises a `TypeError`, modelled by the error result. -/
def gvd_mark (main : List Vert) : List Vert → List Nat → Except String (List Nat)
  | [], marked => .ok marked
  | v :: rest, marked =>
    match kdFind main v with
    | none => .error "TypeError: None is not comparable with float"
    | some (i, d) =>
      if d < eps2 ∧ i ∉ marked then gvd_mark main rest (marked ++ [i])
      else gvd_mark main rest marked

/-- Removal of the marked indices from the main list.  The source pops the
marked indices in descending order, which keeps exactly the vertices whose
index is unmarked, in their original order. -/
def keep_unmarked (marked : List Nat) : Nat → List Vert → List Vert
  | _, [] => []
  | i, v :: rest =>
    if i ∈ marked then keep_unmarked marked (i + 1) rest
    else v :: keep_unmarked marked (i + 1) rest

/-- `get_verts_difference(main_set, remove_set)` from `custom_utilities.py`. -/
def get_verts_difference (main_set remove_set : List Vert) : Except String (List Vert) :=
  match gvd_mark main_set remove_set [] with
  | .error e => .error e
  | .ok marked => .ok (keep_unmarked marked 0 main_set)

/-- `verts_in(kd, add_set)` from `custom_utilities.py`, with the K-D tree
replaced by the vertex list it indexes.  The Python guard `if dist:` skips a
candidate both when the tree is empty (`dist is None`) and when the distance
is exactly `0.0` (falsy float), hence the `d ≠ 0` conjunct. -/
def verts_in (indexed : List Vert) (add_set : List Vert) : Bool :=
  add_set.any fun v =>
    match kdFind indexed v with
    | none => false
    | some (_, d) => decide (d ≠ 0) && decide (d < eps2)

/-- The `pos` argument of `face_sel` ("top" / "bot" / "edge"). -/
inductive FacePos
  | top
  | bot
  | edge
deriving DecidableEq

/-- A mesh face as read by `face_sel`: its (unit) normal and the indices of
its vertices in the owning mesh. -/
structure Face where
  normal : Vert
  vertIdx : List Nat
deriving DecidableEq

/-- A mesh as read by `face_sel`: a vertex list and a face list. -/
structure PMesh where
  vertices : List Vert
  faces : List Face
deriving DecidableEq

/-- The vertex coordinates of one face (`obj.data.vertices[ind].co` for each
index of the face's loop). -/
def face_verts (m : PMesh) (f : Face) : List Vert :=
  f.vertIdx.map fun i => m.vertices.getD i ⟨0, 0, 0⟩

/-- `face_sel(obj, pos, edge_verts)` from `custom_utilities.py`, as the
selection predicate it applies to one face: `top` selects `normal.z > 0.5`,
`bot` selects `normal.z < -0.5`, and `edge` selects `|normal.z| ≤ 0.5`
conjoined with `verts_in` against the K-D tree built from `edge_verts`
(`None`, the default, becomes the empty list). -/
def face_sel (m : PMesh) (pos : FacePos) (edge_verts : Option (List Vert)) (f : Face) : Bool :=
  let ev := edge_verts.getD []
  match pos with
  | .top => decide ((1 / 2 : ℚ) < f.normal.z)
  | .bot => decide (f.normal.z < -(1 / 2 : ℚ))
  | .edge => decide (|f.normal.z| ≤ (1 / 2 : ℚ)) && verts_in ev (face_verts m f)

/-- `clean_bool_diff_artifacts` from `board.py`: deletes every vertex whose
`Z` coordinate is off the `Z = 0` plane (`abs(v.co[2]) > 0`). -/
def clean_bool_diff_artifacts (mesh : List Vert) : List Vert :=
  mesh.filter fun v => !decide ((0 : ℚ) < |v.z|)

/-- `boolean_diff(obj, tool)` from `board.py`: the Blender boolean-difference
modifier is an external kernel primitive, taken here as an opaque function
`tool` on the vertex list; the source always follows it with
`clean_bool_diff_artifacts`. -/
def boolean_diff (mesh : List Vert) (tool : List Vert → List Vert) : List Vert :=
  clean_bool_diff_artifacts (tool mesh)

/-- The three edge-vertex sets sampled by `make_board`. -/
structure BoardEdgeVerts where
  bare : List Vert
  allv : List Vert
  plated : Except String (List Vert)

/-- The hole-cutting fragment of `make_board` (`board.py`): cut the
non-plated holes (when a NPTH mesh exists), sample `bare_pcb_verts`, cut the
plated holes (when a PTH mesh exists), sample `all_pcb_verts`, and compute
`plated_pcb_verts` as their vertex-set difference.  Both cuts are
`boolean_diff` applications whose kernel part is the corresponding opaque
tool function; `none` models an absent hole mesh, whose cut is skipped. -/
def make_board_edge_verts (pcb : List Vert)
    (npth pth : Option (List Vert → List Vert)) : BoardEdgeVerts :=
  let pcb1 := match npth with
    | some tool => boolean_diff pcb tool
    | none => pcb
  let bare_pcb_verts := get_vertices pcb1 4
  let pcb2 := match pth with
    | some tool => boolean_diff pcb1 tool
    | none => pcb1
  let all_pcb_verts := get_vertices pcb2 4
  { bare := bare_pcb_verts
    allv := all_pcb_verts
    plated := get_verts_difference all_pcb_verts bare_pcb_verts }

/-- One stacked board layer produced by the duplication loop of `make_board`:
its vertex list and the `Z` location the duplicate is moved to. -/
structure PcbLayer where
  verts : List Vert
  zLoc : ℚ
deriving DecidableEq

/-- The per-duplicate vertex update of `make_board`: every vertex with
`co[2] >= 0.0001` has its `Z` coordinate set to the layer's width. -/
def update_layer_thickness (verts : List Vert) (layer_width : ℚ) : List Vert :=
  verts.map fun v => if (1 / 10000 : ℚ) ≤ v.z then ⟨v.x, v.y, layer_width⟩ else v

/-- The body of the layer loop: `z_counter` starts at the width already given
to the base board and accumulates each duplicated layer's width. -/
def make_board_layers_go (base : List Vert) (z_counter : ℚ) : List ℚ → List PcbLayer
  | [] => []
  | w :: ws =>
    ⟨update_layer_thickness base w, z_counter⟩ :: make_board_layers_go base (z_counter + w) ws

/-- The layer-duplication loop of `make_board` (`board.py`): the base board
is extruded to `layer_thickness[0]`, then for each `i` in
`range(len(all_list))` a duplicate is rescaled to `layer_thickness[i+1]` and
moved up to the running `z_counter`.  `generate_all_layers_list` returns one
more thickness entry than `all_list` has entries, so the loop consumes
exactly the tail of the thickness list, which is how it is modelled here. -/
def make_board_layers (base : List Vert) (layer_thickness : List ℚ) : List PcbLayer :=
  match layer_thickness with
  | [] => []
  | t0 :: rest => make_board_layers_go base t0 rest

/-- One stackup entry as built by `_parse_stackup_from_file`
(`stackup.py`): the `{"name", "thickness", "user-name"}` dictionary.  JSON
numeric thicknesses are modelled as rationals; a JSON `null` thickness — like
a `0.0` one — is falsy in the source's `if new_entry["thickness"]:` guard and
is modelled as `0`. -/
structure StackLayer where
  name : String
  thickness : ℚ
  userName : String
deriving DecidableEq

/-- Leading decimal digits of a character list, with the remainder. -/
def takeDigits : List Char → List Char × List Char
  | [] => ([], [])
  | c :: cs =>
    if c.isDigit then
      let (ds, r) := takeDigits cs
      (c :: ds, r)
    else ([], c :: cs)

/-- Strips the first argument from the front of the second, or fails. -/
def stripPref : List Char → List Char → Option (List Char)
  | [], s => some s
  | _ :: _, [] => none
  | p :: ps, c :: cs => if c = p then stripPref ps cs else none

/-- The characters of the literal `"dielectric "` head of the pattern. -/
def dielHead : List Char := "dielectric ".data

/-- `re.match` of the anchored pattern `^(dielectric \d+) \(\d+/\d+\)$` used
by `_parse_stackup_from_file`, returning capture group 1 on success. -/
def dielGroupMatch (s : String) : Option String :=
  match stripPref dielHead s.data with
  | none => none
  | some r1 =>
    let (ds, r2) := takeDigits r1
    if ds.isEmpty then none
    else
      match stripPref " (".data r2 with
      | none => none
      | some r3 =>
        let (a, r4) := takeDigits r3
        if a.isEmpty then none
        else
          match stripPref "/".data r4 with
          | none => none
          | some r5 =>
            let (b, r6) := takeDigits r5
            if b.isEmpty then none
            else if r6 = ")".data then some (String.mk (dielHead ++ ds)) else none

/-- Whether an entry's name matches the partial-dielectric pattern. -/
def isDielSub (e : StackLayer) : Bool := (dielGroupMatch e.name).isSome

/-- The two normalisation rewrites `_parse_stackup_from_file` applies to
`previous_entry` when a new entry is emitted after it: a name matching the
partial pattern is replaced by capture group 1, then likewise for the
user-facing name. -/
def normalizeLayer (e : StackLayer) : StackLayer :=
  let e1 := match dielGroupMatch e.name with
    | some g => { e with name := g }
    | none => e
  match dielGroupMatch e1.userName with
  | some g => { e1 with userName := g }
  | none => e1

/-- One iteration of the merge loop in `_parse_stackup_from_file`.  The state
is the reversed `stackup_data` list: `previous_entry` aliases the most
recently appended entry, i.e. the head of the reversed list, so accumulating
a thickness into `previous_entry` rewrites that head in place.  The initial
dummy `previous_entry` (empty name and user-name, never appended, never
matching the pattern) corresponds to the empty state. -/
def merge_step (acc : List StackLayer) (e : StackLayer) : List StackLayer :=
  match acc with
  | [] => [e]
  | p :: rest =>
    if isDielSub e && isDielSub p then
      { p with thickness := p.thickness + e.thickness } :: rest
    else
      e :: normalizeLayer p :: rest

/-- The full merge pass of `_parse_stackup_from_file` over the parsed layer
entries, producing `stackup_data`. -/
def merge_stackup (layers : List StackLayer) : List StackLayer :=
  (layers.foldl merge_step []).reverse

/-- The `calculated_thickness` accumulation of `_parse_stackup_from_file`:
all truthy thicknesses of the raw entries, summed. -/
def calculated_thickness (layers : List StackLayer) : ℚ :=
  layers.foldl (fun acc e => if e.thickness ≠ 0 then acc + e.thickness else acc) 0

/-- `_parse_stackup_from_file` (`stackup.py`) with the filesystem and JSON
decoding abstracted: `file_exists` is the `file_path.exists()` test, and
`file_json` is the decoded `stackup_json_data["layers"]` (or `none` when
opening, decoding or indexing raises, which the source converts to
`RuntimeError("Could not read stackup.json")`).  When the file does not
exist, the source logs a warning and returns the default thickness with an
empty stackup list. -/
def parse_stackup_from_file (file_exists : Bool) (file_json : Option (List StackLayer))
    (default_thickness : ℚ) : Except String (ℚ × List StackLayer) :=
  if !file_exists then .ok (default_thickness, [])
  else
    match file_json with
    | none => .error "Could not read stackup.json"
    | some layers => .ok (calculated_thickness layers, merge_stackup layers)

/-- Substring containment, modelling Python's `needle in haystack`:
`isPrefOf n h` is `n` being a prefix of `h`. -/
def isPrefOf : List Char → List Char → Bool
  | [], _ => true
  | _ :: _, [] => false
  | c :: cs, d :: ds => c = d && isPrefOf cs ds

/-- Substring containment over character lists. -/
def containsSub (needle : List Char) : List Char → Bool
  | [] => needle.isEmpty
  | c :: cs => isPrefOf needle (c :: cs) || containsSub needle cs

/-- Python's `needle in haystack` on strings. -/
def strContains (hay needle : String) : Bool := containsSub needle.data hay.data

/-- `GBR_IN` from `modules/config.py`. -/
def GBR_IN : String := "In"

/-- `GBR_F_CU` from `modules/config.py`. -/
def GBR_F_CU : String := "F_Cu"

/-- `GBR_B_CU` from `modules/config.py`. -/
def GBR_B_CU : String := "B_Cu"

/-- The `StackupInfo` consumed by `generate_all_layers_list`: the merged
stackup entries and the calculated board thickness returned by
`stackup.get()`. -/
structure StackupInfo where
  stackup_data : List StackLayer
  thickness : ℚ

/-- `generate_all_layers_list` (`board.py`).  The directory scan for inner
layer PNGs is filesystem I/O and enters as its result `in_list` (the sorted
inner-layer file names); `stackup_effect` is
`config.blendcfg["EFFECTS"]["STACKUP"]`.  The `isinstance(thickness, float)`
guard of the mask sums holds for every modelled (numeric) thickness.  The
inner-layer count mismatch raises `RuntimeError`, modelled by the error
result. -/
def generate_all_layers_list (stackup_effect : Bool) (stk : StackupInfo)
    (in_list : List String) : Except String (List String × List ℚ) :=
  let all_layer_thickness : List ℚ := [stk.thickness]
  if !stackup_effect then .ok ([], all_layer_thickness)
  else
    let all_list := [GBR_B_CU ++ ".png"] ++ in_list ++ [GBR_F_CU ++ ".png"]
    let layer_count := all_list.length + 1
    if stk.stackup_data.isEmpty then
      .ok (all_list, List.replicate layer_count (stk.thickness / (layer_count : ℚ)))
    else
      let stk_in_list :=
        (stk.stackup_data.filter fun e => strContains e.name GBR_IN).map StackLayer.name
      if in_list.length ≠ stk_in_list.length then
        .error "Stackup layer mismatch between exported gerber files and stackup.json"
      else
        let in_layer_thickness :=
          (((stk.stackup_data.filter fun e => strContains e.name "dielectric").map
            StackLayer.thickness)).reverse
        let cu_layer_thickness :=
          (stk.stackup_data.filter fun e => strContains e.name ".Cu").map StackLayer.thickness
        let sum_cu := cu_layer_thickness.sum
        let front_thickness : List ℚ :=
          [((stk.stackup_data.filter fun e =>
              e.name.startsWith "F." && !e.name.endsWith ".Cu").map StackLayer.thickness).sum]
        let back_thickness : List ℚ :=
          [((stk.stackup_data.filter fun e =>
              e.name.startsWith "B." && !e.name.endsWith ".Cu").map StackLayer.thickness).sum]
        let base := back_thickness ++ in_layer_thickness ++ front_thickness
        .ok (all_list, base.map fun t => t + sum_cu / (layer_count : ℚ))

/-- The length of `List.dropWhile` never exceeds the input's length. -/
theorem length_dropWhile_le {α : Type} (p : α → Bool) (l : List α) :
    (l.dropWhile p).length ≤ l.length := by
  induction l with
  | nil => simp [List.dropWhile]
  | cons a l ih =>
    rw [List.dropWhile]
    cases p a <;> simp
    omega

/-- Specification-side description of the merge pass, stated from the spec's
words for comparison with `merge_stackup`: each maximal run of consecutive
partial-dielectric entries is coalesced into its first entry with the run's
thicknesses summed. -/
def coalesce_runs : List StackLayer → List StackLayer
  | [] => []
  | e :: rest =>
    if isDielSub e then
      { e with thickness :=
          e.thickness + ((rest.takeWhile isDielSub).map StackLayer.thickness).sum } ::
        coalesce_runs (rest.dropWhile isDielSub)
    else
      e :: coalesce_runs rest
termination_by l => l.length
decreasing_by
  · exact Nat.lt_succ_of_le (length_dropWhile_le _ _)
  · simp

/-- Specification-side description of the emission-time normalisation: every
emitted entry except the final one has the partial-dielectric pattern
normalised away from its name and user-name. -/
def norm_all_but_last : List StackLayer → List StackLayer
  | [] => []
  | [e] => [e]
  | e :: rest => normalizeLayer e :: norm_all_but_last rest

/-- `kd.find` answers `None` exactly on an empty tree. -/
theorem kdFind_eq_none {l : List Vert} {p : Vert} (h : kdFind l p = none) : l = [] := by
  cases l with
  | nil => rfl
  | cons v rest =>
    rw [kdFind] at h
    cases h' : kdFind rest p with
    | none => rw [h'] at h; exact absurd h (by simp)
    | some jd =>
      rw [h'] at h
      obtain ⟨j, d⟩ := jd
      by_cases hle : dist2 v p ≤ d <;> simp [hle] at h

/-- `kd.find` on a non-empty tree returns the distance of the found vertex
and a distance no larger than that of any inserted vertex. -/
theorem kdFind_spec {l : List Vert} {p : Vert} {i : Nat} {d : ℚ}
    (h : kdFind l p = some (i, d)) :
    ∃ v, l[i]? = some v ∧ d = dist2 v p ∧ ∀ (j : Nat) (w : Vert), l[j]? = some w → d ≤ dist2 w p := by
  induction l generalizing i d with
  | nil => exact absurd h (by simp [kdFind])
  | cons v rest ih =>
    rw [kdFind] at h
    cases h' : kdFind rest p with
    | none =>
      rw [h'] at h
      obtain ⟨hi, hd⟩ : 0 = i ∧ dist2 v p = d := by
        constructor <;> [exact congrArg Prod.fst (Option.some.inj h);
          exact congrArg Prod.snd (Option.some.inj h)]
      subst hi; subst hd
      refine ⟨v, by simp, rfl, ?_⟩
      intro j w hw
      cases j with
      | zero => simp at hw; subst hw; exact le_refl _
      | succ j =>
        have := kdFind_eq_none h'
        subst this
        simp at hw
    | some jd =>
      obtain ⟨j0, d0⟩ := jd
      rw [h'] at h
      obtain ⟨w0, hw0, hd0, hmin0⟩ := ih h'
      dsimp only at h
      by_cases hle : dist2 v p ≤ d0
      · rw [if_pos hle] at h
        obtain ⟨hi, hd⟩ : 0 = i ∧ dist2 v p = d := by
          constructor <;> [exact congrArg Prod.fst (Option.some.inj h);
            exact congrArg Prod.snd (Option.some.inj h)]
        subst hi; subst hd
        refine ⟨v, by simp, rfl, ?_⟩
        intro j w hw
        cases j with
        | zero => simp at hw; subst hw; exact le_refl _
        | succ j => exact le_trans hle (hmin0 j w (by simpa using hw))
      · rw [if_neg hle] at h
        obtain ⟨hi, hd⟩ : j0 + 1 = i ∧ d0 = d := by
          constructor <;> [exact congrArg Prod.fst (Option.some.inj h);
            exact congrArg Prod.snd (Option.some.inj h)]
        subst hi; subst hd
        refine ⟨w0, by simpa using hw0, hd0, ?_⟩
        intro j w hw
        cases j with
        | zero =>
          simp at hw; subst hw
          exact le_of_lt (lt_of_not_le hle)
        | succ j => exact hmin0 j w (by simpa using hw)

/-- On a non-empty tree, `kd.find` always answers. -/
theorem kdFind_isSome {l : List Vert} (hl : l ≠ []) (p : Vert) :
    ∃ i d, kdFind l p = some (i, d) := by
  cases h : kdFind l p with
  | none => exact absurd (kdFind_eq_none h) hl
  | some r =>
    obtain ⟨i, d⟩ := r
    exact ⟨i, d, rfl⟩

/-- With a non-empty main list the marking loop never raises. -/
theorem gvd_mark_ok {main : List Vert} (hm : main ≠ []) :
    ∀ (rem : List Vert) (marked : List Nat), ∃ m, gvd_mark main rem marked = .ok m := by
  intro rem
  induction rem with
  | nil => exact fun marked => ⟨marked, rfl⟩
  | cons v rest ih =>
    intro marked
    obtain ⟨i, d, hf⟩ := kdFind_isSome hm v
    rw [gvd_mark, hf]
    dsimp only
    by_cases hc : d < eps2 ∧ i ∉ marked
    · rw [if_pos hc]; exact ih _
    · rw [if_neg hc]; exact ih _

/-- The marked-index list only grows during the loop. -/
theorem gvd_mark_mono {main : List Vert} :
    ∀ {rem : List Vert} {marked m : List Nat}, gvd_mark main rem marked = .ok m →
      ∀ x ∈ marked, x ∈ m := by
  intro rem
  induction rem with
  | nil =>
    intro marked m h x hx
    rw [gvd_mark] at h
    cases h
    exact hx
  | cons v rest ih =>
    intro marked m h x hx
    rw [gvd_mark] at h
    cases hf : kdFind main v with
    | none => rw [hf] at h; exact absurd h (by simp)
    | some r =>
      obtain ⟨i, d⟩ := r
      rw [hf] at h
      dsimp only at h
      by_cases hc : d < eps2 ∧ i ∉ marked
      · rw [if_pos hc] at h
        exact ih h x (by simp [hx])
      · rw [if_neg hc] at h
        exact ih h x hx

/-- Every finally marked index was either marked initially or is the
nearest-match index of some removal vertex with distance below tolerance. -/
theorem gvd_mark_sound {main : List Vert} :
    ∀ {rem : List Vert} {marked m : List Nat}, gvd_mark main rem marked = .ok m →
      ∀ i ∈ m, i ∈ marked ∨ ∃ b ∈ rem, ∃ d, kdFind main b = some (i, d) ∧ d < eps2 := by
  intro rem
  induction rem with
  | nil =>
    intro marked m h i hi
    rw [gvd_mark] at h
    cases h
    exact Or.inl hi
  | cons v rest ih =>
    intro marked m h i hi
    rw [gvd_mark] at h
    cases hf : kdFind main v with
    | none => rw [hf] at h; exact absurd h (by simp)
    | some r =>
      obtain ⟨i0, d0⟩ := r
      rw [hf] at h
      dsimp only at h
      by_cases hc : d0 < eps2 ∧ i0 ∉ marked
      · rw [if_pos hc] at h
        rcases ih h i hi with hin | ⟨b, hb, d, hbf, hd⟩
        · rcases List.mem_append.mp hin with hin | hin
          · exact Or.inl hin
          · have : i = i0 := by simpa using hin
            subst this
            exact Or.inr ⟨v, by simp, d0, hf, hc.1⟩
        · exact Or.inr ⟨b, by simp [hb], d, hbf, hd⟩
      · rw [if_neg hc] at h
        rcases ih h i hi with hin | ⟨b, hb, d, hbf, hd⟩
        · exact Or.inl hin
        · exact Or.inr ⟨b, by simp [hb], d, hbf, hd⟩

/-- Every removal vertex whose nearest-match distance is below tolerance has
its nearest-match index in the final marked list. -/
theorem gvd_mark_complete {main : List Vert} :
    ∀ {rem : List Vert} {marked m : List Nat}, gvd_mark main rem marked = .ok m →
      ∀ b ∈ rem, ∀ (i : Nat) (d : ℚ), kdFind main b = some (i, d) → d < eps2 → i ∈ m := by
  intro rem
  induction rem with
  | nil => intro marked m h b hb; simp at hb
  | cons v rest ih =>
    intro marked m h b hb i d hbf hd
    rw [gvd_mark] at h
    rcases List.mem_cons.mp hb with hbv | hbrest
    · subst hbv
      rw [hbf] at h
      dsimp only at h
      by_cases hc : d < eps2 ∧ i ∉ marked
      · rw [if_pos hc] at h
        exact gvd_mark_mono h i (by simp)
      · rw [if_neg hc] at h
        have hi : i ∈ marked := by
          by_contra hni
          exact hc ⟨hd, hni⟩
        exact gvd_mark_mono h i hi
    · cases hf : kdFind main v with
      | none => rw [hf] at h; exact absurd h (by simp)
      | some r =>
        obtain ⟨i0, d0⟩ := r
        rw [hf] at h
        dsimp only at h
        by_cases hc : d0 < eps2 ∧ i0 ∉ marked
        · rw [if_pos hc] at h
          exact ih h b hbrest i d hbf hd
        · rw [if_neg hc] at h
          exact ih h b hbrest i d hbf hd

/-- Membership in the unmarked-survivor list. -/
theorem mem_keep_unmarked {marked : List Nat} :
    ∀ {l : List Vert} {k : Nat} {x : Vert},
      x ∈ keep_unmarked marked k l ↔ ∃ j : Nat, l[j]? = some x ∧ (k + j) ∉ marked := by
  intro l
  induction l with
  | nil => intro k x; simp [keep_unmarked]
  | cons v rest ih =>
    intro k x
    rw [keep_unmarked]
    by_cases hk : k ∈ marked
    · rw [if_pos hk, ih]
      constructor
      · rintro ⟨j, hj, hnm⟩
        exact ⟨j + 1, by simpa using hj, by have : k + (j + 1) = k + 1 + j := by omega
                                            rw [this]; exact hnm⟩
      · rintro ⟨j, hj, hnm⟩
        cases j with
        | zero =>
          simp at hj
          subst hj
          simp at hnm
          exact absurd hk hnm
        | succ j =>
          refine ⟨j, by simpa using hj, ?_⟩
          have : k + 1 + j = k + (j + 1) := by omega
          rw [this]; exact hnm
    · rw [if_neg hk]
      constructor
      · intro hmem
        rcases List.mem_cons.mp hmem with hxv | hxr
        · exact ⟨0, by simp [hxv], by simpa using hk⟩
        · obtain ⟨j, hj, hnm⟩ := ih.mp hxr
          refine ⟨j + 1, by simpa using hj, ?_⟩
          have : k + (j + 1) = k + 1 + j := by omega
          rw [this]; exact hnm
      · rintro ⟨j, hj, hnm⟩
        cases j with
        | zero =>
          simp at hj
          exact List.mem_cons.mpr (Or.inl hj.symm)
        | succ j =>
          refine List.mem_cons.mpr (Or.inr (ih.mpr ⟨j, by simpa using hj, ?_⟩))
          have : k + 1 + j = k + (j + 1) := by omega
          rw [this]; exact hnm

/-- **C10**: `get_verts_difference` is only total when the main set is
non-empty: for an empty main set and a non-empty remove set the
nearest-neighbour query yields no distance and the comparison raises,
whereas a non-empty main set (or an empty remove set) always produces a
result list. -/
theorem get_verts_difference_totality (main_set remove_set : List Vert) :
    (main_set = [] → remove_set ≠ [] →
      get_verts_difference main_set remove_set =
        .error "TypeError: None is not comparable with float") ∧
    (main_set ≠ [] ∨ remove_set = [] →
      ∃ l, get_verts_difference main_set remove_set = .ok l) := by
  constructor
  · rintro rfl hr
    cases remove_set with
    | nil => exact absurd rfl hr
    | cons v rest => rfl
  · intro h
    rcases h with hm | hr
    · obtain ⟨m, hm'⟩ := gvd_mark_ok hm remove_set []
      exact ⟨keep_unmarked m 0 main_set, by simp [get_verts_difference, hm']⟩
    · subst hr
      exact ⟨keep_unmarked [] 0 main_set, by simp [get_verts_difference, gvd_mark]⟩

/-- Witness for C10 at concrete inputs. -/
theorem get_verts_difference_totality_witness :
    get_verts_difference [] [⟨0, 0, 0⟩] =
      .error "TypeError: None is not comparable with float" ∧
    ∃ l, get_verts_difference [⟨1, 2, 3⟩] [⟨0, 0, 0⟩] = .ok l :=
  ⟨(get_verts_difference_totality [] [⟨0, 0, 0⟩]).1 rfl (by simp),
   (get_verts_difference_totality [⟨1, 2, 3⟩] [⟨0, 0, 0⟩]).2 (Or.inl (by simp))⟩

/-- Squared distances are symmetric. -/
theorem dist2_comm (a b : Vert) : dist2 a b = dist2 b a := by
  unfold dist2; ring

/-- Squared-distance form of the triangle inequality. -/
theorem dist2_triangle2 (a b c : Vert) : dist2 a c ≤ 2 * (dist2 a b + dist2 b c) := by
  unfold dist2
  nlinarith [sq_nonneg ((a.x - b.x) - (b.x - c.x)), sq_nonneg ((a.y - b.y) - (b.y - c.y)),
    sq_nonneg ((a.z - b.z) - (b.z - c.z))]

/-- **C5** (amended): for `plated = get_verts_difference(all, bare)` the
plated set is a subset of the all-edge set, every all-edge vertex is plated
or within tolerance of a bare vertex, and — provided the all-edge vertex
list is pairwise separated by at least twice the tolerance — no plated
vertex is within tolerance of any bare vertex.  The separation proviso is
necessary: duplicate sampled vertices defeat the disjointness (see the
counterexample). -/
theorem plated_bare_partition (allv bare plated : List Vert)
    (hok : get_verts_difference allv bare = .ok plated) :
    (∀ p ∈ plated, p ∈ allv) ∧
    (∀ x ∈ allv, x ∈ plated ∨ ∃ b ∈ bare, dist2 x b < eps2) ∧
    (allv.Pairwise (fun u v => 4 * eps2 ≤ dist2 u v) →
      ∀ p ∈ plated, ∀ b ∈ bare, ¬ dist2 p b < eps2) := by
  rw [get_verts_difference] at hok
  cases hmark : gvd_mark allv bare [] with
  | error e => rw [hmark] at hok; exact absurd hok (by simp)
  | ok marked =>
    rw [hmark] at hok
    have hpl : plated = keep_unmarked marked 0 allv := by
      have := hok
      simp at this
      exact this.symm
    subst hpl
    refine ⟨?_, ?_, ?_⟩
    · intro p hp
      obtain ⟨j, hj, -⟩ := mem_keep_unmarked.mp hp
      exact List.getElem?_mem hj
    · intro x hx
      obtain ⟨j, hjlen, hje⟩ := List.getElem_of_mem hx
      have hj : allv[j]? = some x := by rw [List.getElem?_eq_some]; exact ⟨hjlen, hje⟩
      by_cases hjm : j ∈ marked
      · rcases gvd_mark_sound hmark j hjm with hin | ⟨b, hb, d, hbf, hd⟩
        · simp at hin
        · obtain ⟨v, hv, hdv, -⟩ := kdFind_spec hbf
          rw [hj] at hv
          have hvx : v = x := by simpa using hv.symm
          subst hvx
          exact Or.inr ⟨b, hb, by rw [← hdv]; exact hd⟩
      · exact Or.inl (mem_keep_unmarked.mpr ⟨j, hj, by simpa using hjm⟩)
    · intro hsep p hp b hb hlt
      obtain ⟨j, hj, hjm⟩ := mem_keep_unmarked.mp hp
      simp at hjm
      have hpallv : p ∈ allv := List.getElem?_mem hj
      have hne : allv ≠ [] := by
        intro h
        rw [h] at hpallv
        simp at hpallv
      obtain ⟨i, d, hf⟩ := kdFind_isSome hne b
      obtain ⟨v, hv, hdv, hmin⟩ := kdFind_spec hf
      have hdle : d ≤ dist2 p b := hmin j p hj
      have hdlt : d < eps2 := lt_of_le_of_lt hdle hlt
      have him : i ∈ marked := gvd_mark_complete hmark b hb i d hf hdlt
      have hij : i ≠ j := fun h => hjm (h ▸ him)
      obtain ⟨hilen, hie⟩ := List.getElem?_eq_some.mp hv
      obtain ⟨hjlen, hje⟩ := List.getElem?_eq_some.mp hj
      have hsep' := List.pairwise_iff_getElem.mp hsep
      have hvp : 4 * eps2 ≤ dist2 v p := by
        rcases lt_or_gt_of_ne hij with hlt' | hlt'
        · have := hsep' i j hilen hjlen hlt'
          rw [hie, hje] at this
          exact this
        · have := hsep' j i hjlen hilen hlt'
          rw [hie, hje] at this
          rw [dist2_comm]
          exact this
      have htri : dist2 v p ≤ 2 * (dist2 v b + dist2 b p) := dist2_triangle2 v b p
      have hbp : dist2 b p < eps2 := by rw [dist2_comm]; exact hlt
      have hvb : dist2 v b < eps2 := by rw [← hdv]; exact hdlt
      linarith

/-- Witness for C5 at a concrete separated board: `all = [(0,0,0), (1,0,0)]`,
`bare = [(0,0,0)]` gives `plated = [(1,0,0)]`, within the all-edge set and
not within tolerance of any bare vertex. -/
theorem plated_bare_partition_witness :
    (∀ p ∈ [(⟨1, 0, 0⟩ : Vert)], p ∈ [(⟨0, 0, 0⟩ : Vert), ⟨1, 0, 0⟩]) ∧
    (∀ p ∈ [(⟨1, 0, 0⟩ : Vert)], ∀ b ∈ [(⟨0, 0, 0⟩ : Vert)], ¬ dist2 p b < eps2) := by
  have h := plated_bare_partition [⟨0, 0, 0⟩, ⟨1, 0, 0⟩] [⟨0, 0, 0⟩] [⟨1, 0, 0⟩]
    (by norm_num [get_verts_difference, gvd_mark, kdFind, dist2, eps2, keep_unmarked])
  exact ⟨h.1, h.2.2 (by norm_num [List.pairwise_cons, dist2, eps2])⟩

/-- Counterexample to C5 as stated: when the all-edge list carries a
duplicated sampled vertex, the plated set retains one copy of a bare vertex,
so the plated and bare sets are not disjoint (the retained plated vertex *is*
a bare vertex, at distance `0`). -/
theorem plated_bare_overlap_cex :
    get_verts_difference [⟨0, 0, 0⟩, ⟨0, 0, 0⟩] [⟨0, 0, 0⟩] = .ok [⟨0, 0, 0⟩] ∧
    (⟨0, 0, 0⟩ : Vert) ∈ [(⟨0, 0, 0⟩ : Vert)] := by
  constructor
  · norm_num [get_verts_difference, gvd_mark, kdFind, dist2, eps2, keep_unmarked]
  · simp

/-- **C8**: evaluation of `verts_in` at the failing input: a candidate that
coincides exactly with an indexed vertex (distance `0`, within the `1e-4`
tolerance) is reported as *not* coincident, because the Python guard
`if dist:` treats the falsy distance `0.0` like the no-result case and skips
the candidate — contradicting the function's stated purpose of detecting
common vertices. -/
theorem verts_in_exact_coincidence_bug :
    verts_in [⟨0, 0, 0⟩] [⟨0, 0, 0⟩] = false ∧ dist2 ⟨0, 0, 0⟩ ⟨0, 0, 0⟩ = 0 := by
  constructor
  · norm_num [verts_in, kdFind, dist2, eps2]
  · norm_num [dist2]

/-- Against an empty reference list (the `None` default) `verts_in` never
reports a coincidence. -/
theorem verts_in_nil (add_set : List Vert) : verts_in [] add_set = false := by
  simp [verts_in, kdFind]

/-- **C6** (amended): `face_sel` selects top faces exactly when
`normal.z > 0.5` and bottom faces exactly when `normal.z < -0.5`; an edge
selection forces `|normal.z| ≤ 0.5`; the three selections are pairwise
disjoint and every face is top, bottom, or has `|normal.z| ≤ 0.5`; but with
no reference vertex set supplied (`None`), the edge selection is empty, so
there is no unrestricted edge mode and the three classes need not cover a
face. -/
theorem face_sel_classification (m : PMesh) (ev : Option (List Vert)) (f : Face) :
    (face_sel m .top ev f = decide ((1 / 2 : ℚ) < f.normal.z)) ∧
    (face_sel m .bot ev f = decide (f.normal.z < -(1 / 2 : ℚ))) ∧
    (face_sel m .edge ev f = true → |f.normal.z| ≤ (1 / 2 : ℚ)) ∧
    (¬ (face_sel m .top ev f = true ∧ face_sel m .bot ev f = true)) ∧
    (¬ (face_sel m .top ev f = true ∧ face_sel m .edge ev f = true)) ∧
    (¬ (face_sel m .bot ev f = true ∧ face_sel m .edge ev f = true)) ∧
    (face_sel m .top ev f = true ∨ face_sel m .bot ev f = true ∨
      |f.normal.z| ≤ (1 / 2 : ℚ)) ∧
    (face_sel m .edge none f = false) := by
  have hedge : face_sel m .edge ev f = true → |f.normal.z| ≤ (1 / 2 : ℚ) := by
    intro h
    rw [face_sel.eq_def] at h
    dsimp only at h
    simp only [Bool.and_eq_true, decide_eq_true_eq] at h
    exact h.1
  refine ⟨rfl, rfl, hedge, ?_, ?_, ?_, ?_, ?_⟩
  · rintro ⟨ht, hb⟩
    rw [face_sel.eq_def] at ht hb; dsimp only at ht hb
    simp only [decide_eq_true_eq] at ht hb
    linarith
  · rintro ⟨ht, he⟩
    rw [face_sel.eq_def] at ht; dsimp only at ht
    simp only [decide_eq_true_eq] at ht
    have := abs_le.mp (hedge he)
    linarith [this.2]
  · rintro ⟨hb, he⟩
    rw [face_sel.eq_def] at hb; dsimp only at hb
    simp only [decide_eq_true_eq] at hb
    have := abs_le.mp (hedge he)
    linarith [this.1]
  · rcases le_or_lt f.normal.z (1 / 2 : ℚ) with hz | hz
    · rcases le_or_lt (-(1 / 2 : ℚ)) f.normal.z with hz' | hz'
      · exact Or.inr (Or.inr (abs_le.mpr ⟨hz', hz⟩))
      · refine Or.inr (Or.inl ?_)
        rw [face_sel.eq_def]
        simpa using hz'
    · refine Or.inl ?_
      rw [face_sel.eq_def]
      simpa using hz
  · rw [face_sel.eq_def]
    simp [verts_in_nil]

/-- Witness for C6: a vertical face whose vertex lies at a small positive
distance from a supplied reference vertex is edge-selected, and the theorem
yields its `|normal.z| ≤ 0.5` bound. -/
theorem face_sel_classification_witness :
    |(Face.mk ⟨1, 0, 0⟩ [0]).normal.z| ≤ (1 / 2 : ℚ) :=
  (face_sel_classification ⟨[⟨0, 0, 0⟩], [⟨⟨1, 0, 0⟩, [0]⟩]⟩
      (some [⟨0, 0, 1 / 20000⟩]) ⟨⟨1, 0, 0⟩, [0]⟩).2.2.1
    (by norm_num [face_sel, verts_in, kdFind, face_verts, dist2, eps2])

/-- Counterexample to C6 as stated: a vertical face (`normal.z = 0`) of a
mesh classified with no reference vertex set is selected by none of the
three positions, so classification is not complete and "edge iff
`|normal.z| ≤ 0.5`" fails in the unrestricted call. -/
theorem face_sel_no_default_edge_cex :
    face_sel ⟨[⟨0, 0, 0⟩, ⟨0, 1, 0⟩, ⟨0, 0, 1⟩], [⟨⟨1, 0, 0⟩, [0, 1, 2]⟩]⟩ .top none
        ⟨⟨1, 0, 0⟩, [0, 1, 2]⟩ = false ∧
    face_sel ⟨[⟨0, 0, 0⟩, ⟨0, 1, 0⟩, ⟨0, 0, 1⟩], [⟨⟨1, 0, 0⟩, [0, 1, 2]⟩]⟩ .bot none
        ⟨⟨1, 0, 0⟩, [0, 1, 2]⟩ = false ∧
    face_sel ⟨[⟨0, 0, 0⟩, ⟨0, 1, 0⟩, ⟨0, 0, 1⟩], [⟨⟨1, 0, 0⟩, [0, 1, 2]⟩]⟩ .edge none
        ⟨⟨1, 0, 0⟩, [0, 1, 2]⟩ = false ∧
    |(Vert.mk 1 0 0).z| ≤ (1 / 2 : ℚ) := by
  refine ⟨?_, ?_, ?_, ?_⟩
  · norm_num [face_sel]
  · norm_num [face_sel]
  · norm_num [face_sel, verts_in_nil]
  · norm_num

/-- **C4** (amended): `make_board` records the bare-edge vertex set from the
board *after* the non-plated cut (boolean difference followed by artifact
cleanup) and before the plated cut: it equals the 4-decimal sampling of the
NPTH-cut mesh, reduces to the uncut outline only when no NPTH mesh exists,
and never depends on the plated-hole mesh. -/
theorem bare_verts_recorded_after_npth (pcb : List Vert)
    (npth_tool : List Vert → List Vert)
    (npth pth pth' : Option (List Vert → List Vert)) :
    (make_board_edge_verts pcb (some npth_tool) pth).bare =
      get_vertices (boolean_diff pcb npth_tool) 4 ∧
    (make_board_edge_verts pcb none pth).bare = get_vertices pcb 4 ∧
    (make_board_edge_verts pcb npth pth).bare =
      (make_board_edge_verts pcb npth pth').bare := by
  refine ⟨rfl, rfl, ?_⟩
  cases npth <;> rfl

/-- Counterexample to C4 as stated: a non-plated cut that removes the
outline's only vertex makes the recorded bare-edge set empty, while the
vertex set of the outline before any cut is not empty — so the bare set is
not sampled before the hole subtraction. -/
theorem bare_verts_not_before_cuts_cex :
    (make_board_edge_verts [⟨0, 0, 0⟩] (some fun _ => []) none).bare = [] ∧
    get_vertices [⟨0, 0, 0⟩] 4 = [⟨0, 0, 0⟩] := by
  constructor
  · rfl
  · norm_num [get_vertices, roundToPlaces]

/-- Indexing the layer loop: the `i`-th built layer rescales the base to the
`i`-th remaining width and sits at the accumulated `z_counter`. -/
theorem make_board_layers_go_spec (base : List Vert) :
    ∀ (ws : List ℚ) (z : ℚ) (i : Nat) (w : ℚ), ws[i]? = some w →
      (make_board_layers_go base z ws)[i]? =
        some ⟨update_layer_thickness base w, z + (ws.take i).sum⟩ := by
  intro ws
  induction ws with
  | nil => intro z i w h; simp at h
  | cons v rest ih =>
    intro z i w h
    cases i with
    | zero =>
      simp at h
      subst h
      simp [make_board_layers_go]
    | succ i =>
      rw [make_board_layers_go]
      simp only [List.getElem?_cons_succ] at h ⊢
      rw [ih (z + v) i w h]
      have : z + v + (rest.take i).sum = z + ((v :: rest).take (i + 1)).sum := by
        rw [List.take_succ_cons, List.sum_cons]
        ring
      rw [this]

/-- **C7**: in the assembled stack over a flat base whose vertices sit at
`Z ∈ {0, t0}` with `t0` at least the `0.0001` rescale threshold, the `i`-th
duplicated layer (plan index `i+1`) has every originally non-zero-`Z` vertex
rescaled to exactly the layer's width `w = layer_thickness[i+1]`, and its `Z`
location is the sum of all preceding widths
`layer_thickness[0] + ... + layer_thickness[i]`. -/
theorem layer_rescale_offset (base : List Vert) (t0 : ℚ) (rest : List ℚ) (i : Nat) (w : ℚ)
    (hw : rest[i]? = some w)
    (hbase : ∀ v ∈ base, v.z = 0 ∨ v.z = t0)
    (ht0 : (1 / 10000 : ℚ) ≤ t0) :
    (make_board_layers base (t0 :: rest))[i]? =
      some ⟨base.map (fun v => if v.z = 0 then v else ⟨v.x, v.y, w⟩),
            ((t0 :: rest).take (i + 1)).sum⟩ := by
  have hup : update_layer_thickness base w =
      base.map (fun v => if v.z = 0 then v else ⟨v.x, v.y, w⟩) := by
    unfold update_layer_thickness
    apply List.map_congr_left
    intro v hv
    rcases hbase v hv with h0 | ht
    · rw [h0]
      norm_num
    · rw [ht, if_pos ht0, if_neg (by intro h; rw [h] at ht0; norm_num at ht0)]
  have hsum : t0 + (rest.take i).sum = ((t0 :: rest).take (i + 1)).sum := by
    rw [List.take_succ_cons, List.sum_cons]
  show (make_board_layers_go base t0 rest)[i]? = _
  rw [make_board_layers_go_spec base rest t0 i w hw, hup, hsum]

/-- Witness for C7 at a concrete base and thickness list. -/
theorem layer_rescale_offset_witness :
    (make_board_layers [⟨0, 0, 0⟩, ⟨5, 7, 1⟩] ((1 : ℚ) :: [2, 3]))[1]? =
      some ⟨[(⟨0, 0, 0⟩ : Vert), ⟨5, 7, 1⟩].map
              (fun v => if v.z = 0 then v else ⟨v.x, v.y, 3⟩),
            (((1 : ℚ) :: [2, 3]).take 2).sum⟩ :=
  layer_rescale_offset [⟨0, 0, 0⟩, ⟨5, 7, 1⟩] 1 [2, 3] 1 3 (by norm_num)
    (by rintro v hv
        simp at hv
        rcases hv with rfl | rfl
        · exact Or.inl rfl
        · exact Or.inr rfl)
    (by norm_num)

/-- **C1** (amended): with stackup generation enabled but no stack-up data,
`generate_all_layers_list` divides the configured total thickness `T` evenly
over `layer_count = len(all_list) + 1 = N + 3` slots (back copper, `N` inner
layers, front copper, plus one): the thickness list has `N + 3` entries, each
equal to `T / (N + 3)`, and their sum is exactly `T`. -/
theorem even_split_fallback (T : ℚ) (in_list : List String) :
    generate_all_layers_list true ⟨[], T⟩ in_list =
      .ok ([GBR_B_CU ++ ".png"] ++ in_list ++ [GBR_F_CU ++ ".png"],
           List.replicate (in_list.length + 3) (T / ((in_list.length : ℚ) + 3))) ∧
    (List.replicate (in_list.length + 3) (T / ((in_list.length : ℚ) + 3))).sum = T ∧
    ∀ t ∈ List.replicate (in_list.length + 3) (T / ((in_list.length : ℚ) + 3)),
      t = T / ((in_list.length : ℚ) + 3) := by
  refine ⟨?_, ?_, fun t ht => List.eq_of_mem_replicate ht⟩
  · simp only [generate_all_layers_list, Bool.not_true, Bool.false_eq_true, if_false,
      List.isEmpty_nil, if_true]
    have hlen : ([GBR_B_CU ++ ".png"] ++ in_list ++ [GBR_F_CU ++ ".png"]).length + 1 =
        in_list.length + 3 := by
      simp [List.length_append]
    rw [hlen]
    have hcast : ((in_list.length + 3 : Nat) : ℚ) = (in_list.length : ℚ) + 3 := by
      push_cast
      ring
    rw [hcast]
  · have h3 : ((in_list.length : ℚ) + 3) ≠ 0 := by positivity
    rw [List.sum_replicate, nsmul_eq_mul]
    push_cast
    field_simp

/-- Counterexample to C1 as stated: with `T = 1.6` and `N = 2` inner layers
the produced thickness list has `5 = N + 3` entries of `0.32`, not
`4 = N + 2` entries of `0.4`. -/
theorem even_split_counterexample :
    generate_all_layers_list true ⟨[], 8 / 5⟩ ["In1.png", "In2.png"] =
      .ok (["B_Cu.png", "In1.png", "In2.png", "F_Cu.png"],
           List.replicate 5 ((8 : ℚ) / 25)) ∧
    (List.replicate 5 ((8 : ℚ) / 25)).length ≠ 2 + 2 ∧
    (8 : ℚ) / 25 ≠ (8 / 5) / (2 + 2) := by
  have hb : GBR_B_CU ++ ".png" = "B_Cu.png" := rfl
  have hf : GBR_F_CU ++ ".png" = "F_Cu.png" := rfl
  refine ⟨?_, by simp, by norm_num⟩
  simp only [generate_all_layers_list, Bool.not_true, Bool.false_eq_true, if_false,
    List.isEmpty_nil, if_true, hb, hf]
  norm_num

/-- **C3** (amended): with stack-up generation enabled, a *missing*
`stackup.json` is not an error: `_parse_stackup_from_file` logs a warning and
returns the configured default thickness with empty stackup data.  Only a
file that exists but cannot be read or decoded raises
`RuntimeError("Could not read stackup.json")`. -/
theorem parse_stackup_missing_file_default (d : ℚ) (j : Option (List StackLayer)) :
    parse_stackup_from_file false j d = .ok (d, []) ∧
    parse_stackup_from_file true none d = .error "Could not read stackup.json" :=
  ⟨rfl, rfl⟩

/-- Counterexample to C3 as stated: at a concrete default thickness, the
missing-file call returns a normal result and is not an error of any kind. -/
theorem parse_stackup_missing_file_cex :
    parse_stackup_from_file false none (8 / 5) = .ok (8 / 5, []) ∧
    ∀ e, parse_stackup_from_file false none (8 / 5) ≠ .error e := by
  refine ⟨rfl, ?_⟩
  intro e h
  rw [show parse_stackup_from_file false none (8 / 5) = .ok (8 / 5, []) from rfl] at h
  exact Except.noConfusion h

/-- The emission behaviour of the merge loop from the point where
`previous_entry` holds `p` (already appended, not yet normalised) and the
remaining input is the argument list; intermediate between the imperative
fold and the run-based description. -/
def merge_emit (p : StackLayer) : List StackLayer → List StackLayer
  | [] => [p]
  | e :: rest =>
    if isDielSub e && isDielSub p then
      merge_emit { p with thickness := p.thickness + e.thickness } rest
    else
      normalizeLayer p :: merge_emit e rest

/-- The merge fold in terms of `merge_emit`. -/
theorem foldl_merge_step_reverse :
    ∀ (l : List StackLayer) (p : StackLayer) (rest : List StackLayer),
      (List.foldl merge_step (p :: rest) l).reverse = rest.reverse ++ merge_emit p l := by
  intro l
  induction l with
  | nil => intro p rest; simp [merge_emit]
  | cons e l' ih =>
    intro p rest
    rw [List.foldl_cons, merge_step]
    by_cases hc : (isDielSub e && isDielSub p) = true
    · rw [if_pos hc, ih, merge_emit, if_pos hc]
    · rw [if_neg hc, ih, merge_emit, if_neg hc]
      simp

/-- Coalescing a non-empty list is non-empty. -/
theorem coalesce_runs_ne_nil (x : StackLayer) (l : List StackLayer) :
    coalesce_runs (x :: l) ≠ [] := by
  rw [coalesce_runs]
  split <;> simp

/-- Unfolding `norm_all_but_last` over a cons with a non-empty tail. -/
theorem norm_all_but_last_cons (e : StackLayer) {m : List StackLayer} (hm : m ≠ []) :
    norm_all_but_last (e :: m) = normalizeLayer e :: norm_all_but_last m := by
  cases m with
  | nil => exact absurd rfl hm
  | cons a t => rfl

/-- `merge_emit` agrees with coalescing runs followed by normalising all but
the last emitted entry. -/
theorem merge_emit_eq :
    ∀ (l : List StackLayer) (e : StackLayer),
      merge_emit e l = norm_all_but_last (coalesce_runs (e :: l)) := by
  intro l
  induction l with
  | nil =>
    intro e
    rw [merge_emit, coalesce_runs]
    by_cases he : isDielSub e = true
    · rw [if_pos he]
      simp [norm_all_but_last, coalesce_runs]
    · rw [if_neg he]
      simp [norm_all_but_last, coalesce_runs]
  | cons x l' ih =>
    intro e
    rw [merge_emit]
    by_cases hc : (isDielSub x && isDielSub e) = true
    · rw [if_pos hc]
      obtain ⟨hx, he⟩ : isDielSub x = true ∧ isDielSub e = true := by
        simpa using hc
      rw [ih { e with thickness := e.thickness + x.thickness }]
      congr 1
      rw [coalesce_runs, coalesce_runs]
      have he' : isDielSub { e with thickness := e.thickness + x.thickness } = true := he
      rw [if_pos he', if_pos he, List.takeWhile_cons, List.dropWhile_cons, if_pos hx,
        if_pos hx]
      simp [add_assoc]
    · rw [if_neg hc, ih x]
      by_cases he : isDielSub e = true
      · have hx : isDielSub x = false := by
          cases hxv : isDielSub x with
          | false => rfl
          | true => exact absurd (by rw [hxv, he]; rfl) hc
        have hr : coalesce_runs (e :: x :: l') = e :: coalesce_runs (x :: l') := by
          rw [coalesce_runs, if_pos he, List.takeWhile_cons, List.dropWhile_cons, hx]
          simp
        rw [hr, norm_all_but_last_cons _ (coalesce_runs_ne_nil x l')]
      · have he' : isDielSub e = false := by
          cases hev : isDielSub e with
          | false => rfl
          | true => exact absurd hev he
        have hr : coalesce_runs (e :: x :: l') = e :: coalesce_runs (x :: l') := by
          rw [coalesce_runs, he']
          simp
        rw [hr, norm_all_but_last_cons _ (coalesce_runs_ne_nil x l')]

/-- The merge pass equals run-coalescing followed by normalising every
emitted entry but the last. -/
theorem merge_stackup_eq (l : List StackLayer) :
    merge_stackup l = norm_all_but_last (coalesce_runs l) := by
  cases l with
  | nil => simp [merge_stackup, coalesce_runs, norm_all_but_last]
  | cons e l' =>
    rw [merge_stackup, List.foldl_cons, show merge_step [] e = [e] from rfl,
      show [e] = e :: ([] : List StackLayer) from rfl, foldl_merge_step_reverse l' e []]
    simpa using merge_emit_eq l' e

/-- **C2** (amended): the merge pass coalesces each maximal run of
consecutive entries whose names match the partial-dielectric pattern —
regardless of whether their dielectric indices `N` agree — into a single
entry at the run's original position, with the run's thicknesses summed onto
the run's first entry; every emitted entry except the final one then has the
partial pattern normalised away from its name and user-name (so a trailing
merged run keeps its partial name). -/
theorem merge_stackup_run_coalescing (layers : List StackLayer) :
    merge_stackup layers = norm_all_but_last (coalesce_runs layers) :=
  merge_stackup_eq layers

/-- Counterexample to C2 as stated: two consecutive partial entries with
*different* dielectric indices (`dielectric 1 (1/2)`, `dielectric 2 (1/2)`)
are merged into a single entry (thickness `3 = 1 + 2`), and — the run being
trailing — its emitted name stays `"dielectric 1 (1/2)"` instead of being
normalised to `"dielectric 1"`. -/
theorem merge_stackup_cross_index_cex :
    merge_stackup [⟨"dielectric 1 (1/2)", 1, "u1"⟩, ⟨"dielectric 2 (1/2)", 2, "u2"⟩] =
      [⟨"dielectric 1 (1/2)", 3, "u1"⟩] := by
  have h1 : dielGroupMatch "dielectric 1 (1/2)" = some "dielectric 1" := by decide
  have h2 : dielGroupMatch "dielectric 2 (1/2)" = some "dielectric 2" := by decide
  simp [merge_stackup, merge_step, isDielSub, normalizeLayer, h1, h2]
  norm_num

/-- Digits taken by `takeDigits` are digits. -/
theorem takeDigits_fst_digits :
    ∀ (l : List Char), ∀ c ∈ (takeDigits l).1, c.isDigit = true := by
  intro l
  induction l with
  | nil => intro c hc; simp [takeDigits] at hc
  | cons a t ih =>
    intro c hc
    rw [takeDigits] at hc
    by_cases ha : a.isDigit
    · rw [if_pos ha] at hc
      simp only at hc
      rcases List.mem_cons.mp hc with rfl | hc
      · exact ha
      · exact ih c hc
    · rw [if_neg ha] at hc
      simp at hc

/-- On an all-digit list, `takeDigits` consumes everything. -/
theorem takeDigits_all :
    ∀ (l : List Char), (∀ c ∈ l, c.isDigit = true) → takeDigits l = (l, []) := by
  intro l
  induction l with
  | nil => intro _; rfl
  | cons a t ih =>
    intro h
    rw [takeDigits, if_pos (h a (by simp)), ih (fun c hc => h c (by simp [hc]))]

/-- Stripping an explicit prefix succeeds with the remainder. -/
theorem stripPref_append : ∀ (p s : List Char), stripPref p (p ++ s) = some s := by
  intro p
  induction p with
  | nil => intro s; rfl
  | cons c ps ih => intro s; simp [stripPref, ih]

/-- Any successful match of the partial-dielectric pattern captures
`"dielectric "` followed by a non-empty digit string. -/
theorem dielGroupMatch_shape {s g : String} (h : dielGroupMatch s = some g) :
    ∃ ds : List Char, ds ≠ [] ∧ (∀ c ∈ ds, c.isDigit = true) ∧
      g = String.mk (dielHead ++ ds) := by
  unfold dielGroupMatch at h
  cases hsp : stripPref dielHead s.data with
  | none => rw [hsp] at h; exact absurd h (by simp)
  | some r1 =>
    rw [hsp] at h
    dsimp only at h
    rcases htd : takeDigits r1 with ⟨ds, r2⟩
    rw [htd] at h
    dsimp only at h
    by_cases hde : ds.isEmpty = true
    · rw [if_pos hde] at h; exact absurd h (by simp)
    · rw [if_neg hde] at h
      cases hsp2 : stripPref " (".data r2 with
      | none => rw [hsp2] at h; exact absurd h (by simp)
      | some r3 =>
        rw [hsp2] at h
        dsimp only at h
        rcases htd2 : takeDigits r3 with ⟨a, r4⟩
        rw [htd2] at h
        dsimp only at h
        by_cases hae : a.isEmpty = true
        · rw [if_pos hae] at h; exact absurd h (by simp)
        · rw [if_neg hae] at h
          cases hsp3 : stripPref "/".data r4 with
          | none => rw [hsp3] at h; exact absurd h (by simp)
          | some r5 =>
            rw [hsp3] at h
            dsimp only at h
            rcases htd3 : takeDigits r5 with ⟨b, r6⟩
            rw [htd3] at h
            dsimp only at h
            by_cases hbe : b.isEmpty = true
            · rw [if_pos hbe] at h; exact absurd h (by simp)
            · rw [if_neg hbe] at h
              by_cases hr6 : r6 = ")".data
              · rw [if_pos hr6] at h
                refine ⟨ds, by simpa using hde, ?_, by simpa using h.symm⟩
                intro c hc
                exact takeDigits_fst_digits r1 c (by rw [htd]; exact hc)
              · rw [if_neg hr6] at h
                exact absurd h (by simp)

/-- A normalised name `"dielectric N"` no longer matches the partial
pattern. -/
theorem dielGroupMatch_of_normal {ds : List Char} (hne : ds ≠ [])
    (hdig : ∀ c ∈ ds, c.isDigit = true) :
    dielGroupMatch (String.mk (dielHead ++ ds)) = none := by
  unfold dielGroupMatch
  rw [show (String.mk (dielHead ++ ds)).data = dielHead ++ ds from rfl, stripPref_append]
  dsimp only
  rw [takeDigits_all ds hdig]
  dsimp only
  rw [if_neg (by simpa using hne)]
  rfl

/-- The result of a successful pattern match never matches again. -/
theorem dielGroupMatch_group_none {s g : String} (h : dielGroupMatch s = some g) :
    dielGroupMatch g = none := by
  obtain ⟨ds, hne, hdig, rfl⟩ := dielGroupMatch_shape h
  exact dielGroupMatch_of_normal hne hdig

/-- After `normalizeLayer`, the name no longer matches the pattern. -/
theorem normalizeLayer_name_none (e : StackLayer) :
    dielGroupMatch (normalizeLayer e).name = none := by
  unfold normalizeLayer
  cases hn : dielGroupMatch e.name with
  | none =>
    cases hu : dielGroupMatch e.userName <;> simp [hu, hn]
  | some g =>
    cases hu : dielGroupMatch e.userName <;>
      simp [hu, hn, dielGroupMatch_group_none hn]

/-- After `normalizeLayer`, the user-name no longer matches the pattern. -/
theorem normalizeLayer_userName_none (e : StackLayer) :
    dielGroupMatch (normalizeLayer e).userName = none := by
  unfold normalizeLayer
  cases hn : dielGroupMatch e.name with
  | none =>
    cases hu : dielGroupMatch e.userName with
    | none => simp [hu, hn]
    | some g => simp [hu, hn, dielGroupMatch_group_none hu]
  | some g =>
    cases hu : dielGroupMatch e.userName with
    | none => simp [hu, hn]
    | some g' => simp [hu, hn, dielGroupMatch_group_none hu]

/-- A layer whose name and user-name do not match the pattern is fixed by
`normalizeLayer`. -/
theorem normalizeLayer_id {e : StackLayer} (hn : dielGroupMatch e.name = none)
    (hu : dielGroupMatch e.userName = none) : normalizeLayer e = e := by
  unfold normalizeLayer
  rw [hn]
  simp [hu]

/-- Run coalescing fixes a list with no partial-dielectric name before the
last position (a trailing partial entry forms a singleton run and is kept). -/
theorem coalesce_runs_fixed :
    ∀ {l : List StackLayer}, (∀ e ∈ l.dropLast, isDielSub e = false) →
      coalesce_runs l = l := by
  intro l
  induction l with
  | nil => intro _; simp [coalesce_runs]
  | cons e rest ih =>
    intro h
    cases rest with
    | nil =>
      rw [coalesce_runs]
      by_cases he : isDielSub e = true
      · rw [if_pos he]
        simp [coalesce_runs]
      · rw [if_neg he]
        simp [coalesce_runs]
    | cons x t =>
      have he : isDielSub e = false := h e (by simp)
      rw [coalesce_runs, he]
      simp only [Bool.false_eq_true, if_false]
      rw [ih (fun y hy => h y (by rw [List.dropLast_cons₂]; exact List.mem_cons_of_mem _ hy))]

/-- Normalising all but the last entry fixes a list whose non-final entries
are already normalised. -/
theorem norm_all_but_last_fixed :
    ∀ {l : List StackLayer},
      (∀ e ∈ l.dropLast, dielGroupMatch e.name = none ∧ dielGroupMatch e.userName = none) →
      norm_all_but_last l = l := by
  intro l
  induction l with
  | nil => intro _; rfl
  | cons e rest ih =>
    intro h
    cases rest with
    | nil => rfl
    | cons x t =>
      have he := h e (by simp)
      rw [norm_all_but_last_cons _ (by simp : x :: t ≠ []), normalizeLayer_id he.1 he.2,
        ih (fun y hy => h y (by rw [List.dropLast_cons₂]; exact List.mem_cons_of_mem _ hy))]

/-- `norm_all_but_last` preserves non-emptiness. -/
theorem norm_all_but_last_ne_nil {l : List StackLayer} (hl : l ≠ []) :
    norm_all_but_last l ≠ [] := by
  cases l with
  | nil => exact absurd rfl hl
  | cons e rest =>
    cases rest with
    | nil => simp [norm_all_but_last]
    | cons x t =>
      rw [norm_all_but_last_cons _ (by simp : x :: t ≠ [])]
      simp

/-- The non-final entries produced by `norm_all_but_last` are the normalised
non-final input entries. -/
theorem dropLast_norm_all_but_last :
    ∀ (l : List StackLayer),
      (norm_all_but_last l).dropLast = l.dropLast.map normalizeLayer := by
  intro l
  induction l with
  | nil => rfl
  | cons e rest ih =>
    cases rest with
    | nil => rfl
    | cons x t =>
      rw [norm_all_but_last_cons _ (by simp : x :: t ≠ [])]
      cases hnb : norm_all_but_last (x :: t) with
      | nil => exact absurd hnb (norm_all_but_last_ne_nil (by simp))
      | cons a s =>
        rw [List.dropLast_cons₂, ← hnb, ih, List.dropLast_cons₂, List.map_cons]

/-- **C9** (amended): the merge pass is idempotent — re-running it on its own
output is the identity — and a list in which *no entry's name or user-name*
matches the partial-dielectric pattern passes through completely unchanged.
The user-name condition is needed: a non-final entry whose user-name matches
the pattern is rewritten even when no name matches (see the
counterexample). -/
theorem merge_stackup_idempotent :
    (∀ l : List StackLayer,
      (∀ e ∈ l, dielGroupMatch e.name = none ∧ dielGroupMatch e.userName = none) →
        merge_stackup l = l) ∧
    (∀ l : List StackLayer, merge_stackup (merge_stackup l) = merge_stackup l) := by
  have hfix : ∀ l : List StackLayer,
      (∀ e ∈ l.dropLast, dielGroupMatch e.name = none ∧ dielGroupMatch e.userName = none) →
      merge_stackup l = l := by
    intro l h
    rw [merge_stackup_eq, coalesce_runs_fixed (fun e he => by simp [isDielSub, (h e he).1]),
      norm_all_but_last_fixed h]
  constructor
  · intro l h
    exact hfix l fun e he => h e (List.dropLast_subset l he)
  · intro l
    apply hfix
    rw [merge_stackup_eq, dropLast_norm_all_but_last]
    intro e he
    obtain ⟨x, -, rfl⟩ := List.mem_map.mp he
    exact ⟨normalizeLayer_name_none x, normalizeLayer_userName_none x⟩

/-- Witness for C9: a concrete copper-only stackup list with no
pattern-matching names or user-names is returned unchanged. -/
theorem merge_stackup_idempotent_witness :
    merge_stackup [⟨"F.Cu", 35 / 1000, "F.Cu"⟩, ⟨"B.Cu", 35 / 1000, "B.Cu"⟩] =
      [⟨"F.Cu", 35 / 1000, "F.Cu"⟩, ⟨"B.Cu", 35 / 1000, "B.Cu"⟩] :=
  merge_stackup_idempotent.1 _ (by
    intro e he
    simp at he
    rcases he with rfl | rfl <;> exact ⟨by decide, by decide⟩)

/-- Counterexample to C9 as stated: in this list no entry *name* matches the
partial pattern (the claim's notion of "already merged"), yet the merge pass
rewrites the first entry's user-name `"dielectric 1 (1/2)"` to
`"dielectric 1"`, so the output is not the identical list. -/
theorem merge_stackup_username_cex :
    (∀ e ∈ [(⟨"x", 1, "dielectric 1 (1/2)"⟩ : StackLayer), ⟨"y", 2, "u"⟩],
      dielGroupMatch e.name = none) ∧
    merge_stackup [⟨"x", 1, "dielectric 1 (1/2)"⟩, ⟨"y", 2, "u"⟩] =
      [⟨"x", 1, "dielectric 1"⟩, ⟨"y", 2, "u"⟩] ∧
    ("dielectric 1" : String) ≠ "dielectric 1 (1/2)" := by
  refine ⟨?_, ?_, by decide⟩
  · intro e he
    simp at he
    rcases he with rfl | rfl <;> decide
  · have h1 : dielGroupMatch "x" = none := by decide
    have h2 : dielGroupMatch "y" = none := by decide
    have h3 : dielGroupMatch "dielectric 1 (1/2)" = some "dielectric 1" := by decide
    simp [merge_stackup, merge_step, isDielSub, normalizeLayer, h1, h2, h3]
